import Mathlib

/-!
# Verification of the mkcert CLI wrapper

A shallow embedding of the Go package `mkcert` (a wrapper around the
external `mkcert` certificate tool).  Captured process output is modelled
as `List Char`; the external process is an oracle `Cmd → procResult`
passed to `Exec`, which additionally returns the list of commands it
spawned so that spawning behaviour can be reasoned about.
-/

namespace Mkcert

/-! ## Model of Go `path/filepath` (Unix flavour) -/

/-- `filepath.IsAbs` on Unix: the path starts with a slash. -/
def isAbs (p : List Char) : Bool := p.head? = some '/'

/-- Split a character list on `'/'` (like `strings.Split(s, "/")`). -/
def splitSlash : List Char → List (List Char)
  | [] => [[]]
  | c :: s =>
      if c = '/' then [] :: splitSlash s
      else
        match splitSlash s with
        | [] => [[c]]
        | g :: gs => (c :: g) :: gs

/-- The `..`-resolution loop of `filepath.Clean`: push ordinary components,
pop on `..` (except at the root, where a rooted `..` vanishes and an
unrooted `..` is kept). `acc` is the output stack, most recent first. -/
def processDots (rooted : Bool) : List (List Char) → List (List Char) → List (List Char)
  | acc, [] => acc.reverse
  | acc, comp :: rest =>
      if comp = ['.', '.'] then
        match acc with
        | [] =>
            if rooted then processDots rooted [] rest
            else processDots rooted [comp] rest
        | top :: accRest =>
            if top = ['.', '.'] then processDots rooted (comp :: acc) rest
            else processDots rooted accRest rest
      else processDots rooted (comp :: acc) rest

/-- `filepath.Clean` on Unix: drop empty and `.` components, resolve `..`,
re-root, and return `"."` for an empty result. -/
def cleanPath (p : List Char) : List Char :=
  if p = [] then ['.']
  else
    let rooted := isAbs p
    let comps := (splitSlash p).filter fun c => decide (c ≠ [] ∧ c ≠ ['.'])
    let s := (if rooted then ['/'] else []) ++
      List.intercalate ['/'] (processDots rooted [] comps)
    if s = [] then ['.'] else s

/-- `filepath.Join(a, b)` on Unix: skip leading empty elements, join the
rest with `'/'` and clean. -/
def joinPath (a b : List Char) : List Char :=
  if a = [] then (if b = [] then [] else cleanPath b)
  else cleanPath (a ++ '/' :: b)

/-! ## Model of the two regular expressions

`fileRe` is ``(?m)The certificate is at "(.+?)" and the key at "(.+?)"``
and `caRe` is ``local CA at "(.+?)" [💥✨]\n``.  Both patterns are a
literal, a lazy non-empty group of non-newline characters, and a literal
continuation; Go's `FindSubmatch` returns the leftmost match, with each
lazy group as short as the rest of the pattern allows (leftmost-first
semantics).  The matchers below implement exactly that search, including
backtracking into a longer first group when the second group cannot be
completed. -/

def litPre : List Char := "The certificate is at \"".data

def litMid : List Char := "\" and the key at \"".data

def litFin : List Char := "\"".data

def caPre : List Char := "local CA at \"".data

/-- Second lazy group of `fileRe`: the shortest non-empty run of
non-newline characters followed by the closing literal `litFin`. -/
def matchG2 : List Char → Option (List Char)
  | [] => none
  | c :: s =>
      if c = '\n' then none
      else if litFin.isPrefixOf s then some [c]
      else (matchG2 s).map fun g => c :: g

/-- Continuation after the first group: the middle literal followed by a
successful second-group match. -/
def contAt (s : List Char) : Option (List Char) :=
  if litMid.isPrefixOf s then matchG2 (s.drop litMid.length) else none

/-- First lazy group of `fileRe` with its continuation: consume at least
one non-newline character, try the continuation after every character,
extend on failure (lazy quantifier with backtracking). -/
def matchG1 : List Char → Option (List Char × List Char)
  | [] => none
  | c :: s =>
      if c = '\n' then none
      else
        match contAt s with
        | some g2 => some ([c], g2)
        | none => (matchG1 s).map fun r => (c :: r.1, r.2)

/-- `fileRe.FindSubmatch`: scan for the leftmost position where the prefix
literal matches and the rest of the pattern completes. -/
def findFileMatch : List Char → Option (List Char × List Char)
  | [] => none
  | c :: s =>
      match (if litPre.isPrefixOf (c :: s) then matchG1 ((c :: s).drop litPre.length) else none) with
      | some r => some r
      | none => findFileMatch s

/-- Continuation of `caRe` after its group: `" "`, one of the two marker
characters, then a newline. -/
def caContB : List Char → Bool
  | '"' :: ' ' :: m :: '\n' :: _ => m = '💥' || m = '✨'
  | _ => false

/-- The lazy group of `caRe`: shortest non-empty run of non-newline
characters followed by the `caContB` continuation. -/
def matchCAGroup : List Char → Option (List Char)
  | [] => none
  | c :: s =>
      if c = '\n' then none
      else if caContB s then some [c]
      else (matchCAGroup s).map fun g => c :: g

/-- `caRe.FindSubmatch`: leftmost match of the CA-line pattern. -/
def findCAMatch : List Char → Option (List Char)
  | [] => none
  | c :: s =>
      match (if caPre.isPrefixOf (c :: s) then matchCAGroup ((c :: s).drop caPre.length) else none) with
      | some g => some g
      | none => findCAMatch s

/-! ## The output parsers of `mkcert.go` -/

/-- `parseCA`: the CA-root group of the first `caRe` match, or `""`. -/
def parseCA (out : List Char) : List Char :=
  (findCAMatch out).getD []

/-- `bytes.Contains(hay, needle)`: the needle occurs as a contiguous
substring of the haystack. -/
def containsSub (needle : List Char) : List Char → Bool
  | [] => needle.isEmpty
  | c :: t => needle.isPrefixOf (c :: t) || containsSub needle t

/-- `parseTrusted`: true unless the output contains `"not installed"`. -/
def parseTrusted (out : List Char) : Bool :=
  !containsSub "not installed".data out

/-- `parseFiles`: the two groups of the first `fileRe` match, or a pair
of empty strings. -/
def parseFiles (out : List Char) : List Char × List Char :=
  match findFileMatch out with
  | some r => r
  | none => ([], [])

/-! ## Options and `Exec` -/

/-- The Go `params` struct; zero value is all-empty / `false`. -/
structure params where
  dir : List Char
  certFile : List Char
  keyFile : List Char
  domains : List (List Char)
  requireTrust : Bool
deriving DecidableEq

/-- The zero value `params{}`. -/
def initParams : params := ⟨[], [], [], [], false⟩

/-- `Opt` is a functional option mutating `params`. -/
def Opt := params → params

/-- `Domains`: set the domain list (wholesale). -/
def Domains (domains : List (List Char)) : Opt :=
  fun p => { p with domains := domains }

/-- `RequireTrusted`: set whether `Exec` errors if the CA is untrusted. -/
def RequireTrusted (req : Bool) : Opt :=
  fun p => { p with requireTrust := req }

/-- `Directory`: set the working directory of mkcert. -/
def Directory (path : List Char) : Opt :=
  fun p => { p with dir := path }

/-- `CertFile`: override the generated certificate location. -/
def CertFile (path : List Char) : Opt :=
  fun p => { p with certFile := path }

/-- `KeyFile`: override the generated private-key location. -/
def KeyFile (path : List Char) : Opt :=
  fun p => { p with keyFile := path }

/-- Apply the options in order to the zero `params`. -/
def applyOpts (opts : List Opt) : params :=
  opts.foldl (fun p o => o p) initParams

/-- The result struct returned by `Exec`. -/
structure Cert where
  CARoot : List Char
  Trusted : Bool
  Domains : List (List Char)
  File : List Char
  KeyFile : List Char
deriving DecidableEq

/-- The zero value `Cert{}`. -/
def certZero : Cert := ⟨[], false, [], [], []⟩

/-- A Go error value, as far as this wrapper is concerned: either a
`*exec.ExitError` (with message and `Stderr` field), a flat error string
(`errors.New` / `fmt.Errorf` with `%s`), or a wrapping error
(`fmt.Errorf` with `%w`). -/
inductive goError
  | exitErr (msg stderr : List Char)
  | errorString (msg : List Char)
  | wrapErr (msg : List Char) (inner : goError)
deriving DecidableEq

/-- `err.Error()`: the message of the error. -/
def goError.message : goError → List Char
  | .exitErr m _ => m
  | .errorString m => m
  | .wrapErr m _ => m

/-- `errors.As(err, &perr)` for `perr : *exec.ExitError`: walk the
`Unwrap` chain looking for an exit error; `some (msg, stderr)` when one
is found. -/
def goError.asExitErr : goError → Option (List Char × List Char)
  | .exitErr m st => some (m, st)
  | .errorString _ => none
  | .wrapErr _ e => e.asExitErr

/-- `ErrNoDomains`. -/
def ErrNoDomains : goError := .errorString "mkcert: no domains specified".data

/-- An external command: executable name, arguments, working directory. -/
structure Cmd where
  name : List Char
  args : List (List Char)
  dir : List Char
deriving DecidableEq

/-- Outcome of `cmd.CombinedOutput()`: combined output plus the error
(`none` on a zero exit). -/
structure procResult where
  out : List Char
  err : Option goError
deriving DecidableEq

/-- The argument list `Exec` builds: optional `-cert-file` pair, optional
`-key-file` pair, then the domains as positional arguments. -/
def cmdArgs (p : params) : List (List Char) :=
  ((if p.certFile ≠ [] then ["-cert-file".data, p.certFile] else []) ++
   (if p.keyFile ≠ [] then ["-key-file".data, p.keyFile] else [])) ++ p.domains

/-- The command `Exec` runs for a given `params`. -/
def execCmd (p : params) : Cmd :=
  ⟨"mkcert".data, cmdArgs p, p.dir⟩

/-- The `Cert` built from the captured output (lines 70–85 of
`mkcert.go`): the three parses, then the working-directory join applied
to each non-absolute file path when a directory was configured
(`cmd.Dir = p.dir`). -/
def postCert (p : params) (out : List Char) : Cert :=
  let fk := parseFiles out
  let cert0 : Cert := ⟨parseCA out, parseTrusted out, p.domains, fk.1, fk.2⟩
  if p.dir ≠ [] then
    { cert0 with
      File := if !isAbs cert0.File then joinPath p.dir cert0.File else cert0.File,
      KeyFile := if !isAbs cert0.KeyFile then joinPath p.dir cert0.KeyFile else cert0.KeyFile }
  else cert0

/-- The error returned alongside the `Cert` on a zero-exit run (lines
86–88 of `mkcert.go`): non-nil only when the CA is untrusted and the
caller required trust. -/
def postErr (p : params) (out : List Char) : Option goError :=
  if !(postCert p out).Trusted && p.requireTrust then
    some (goError.errorString
      ("mkcert: CA at ".data ++ (postCert p out).CARoot ++
        " not trusted, run mkcert -install".data))
  else none

/-- The body of `Exec` after option processing.  Returns the spawn trace,
the `Cert`, and the error. -/
def ExecP (run : Cmd → procResult) (p : params) : List Cmd × Cert × Option goError :=
  if p.domains = [] then ([], certZero, some ErrNoDomains)
  else
    let cmd := execCmd p
    let res := run cmd
    match res.err with
    | some e =>
        ([cmd], certZero, some (.errorString ("mkcert: ".data ++ e.message)))
    | none =>
        ([cmd], postCert p res.out, postErr p res.out)

/-- `Exec`: apply the options in order, then run. -/
def Exec (run : Cmd → procResult) (opts : List Opt) : List Cmd × Cert × Option goError :=
  ExecP run (applyOpts opts)

/-! ## Descriptions of the five exported options, for reasoning about
option application order -/

/-- One of the five exported option constructors, with its argument. -/
inductive optDesc
  | domains (ds : List (List Char))
  | requireTrusted (b : Bool)
  | directory (p : List Char)
  | certFile (p : List Char)
  | keyFile (p : List Char)
deriving DecidableEq

/-- The option a description denotes. -/
def optDesc.app : optDesc → Opt
  | .domains ds => Domains ds
  | .requireTrusted b => RequireTrusted b
  | .directory p => Directory p
  | .certFile p => CertFile p
  | .keyFile p => KeyFile p

/-- Argument of a `Domains` option, if it is one. -/
def domainsArg : optDesc → Option (List (List Char))
  | .domains ds => some ds
  | _ => none

/-- Argument of a `RequireTrusted` option, if it is one. -/
def requireTrustedArg : optDesc → Option Bool
  | .requireTrusted b => some b
  | _ => none

/-- Argument of a `Directory` option, if it is one. -/
def directoryArg : optDesc → Option (List Char)
  | .directory p => some p
  | _ => none

/-- Argument of a `CertFile` option, if it is one. -/
def certFileArg : optDesc → Option (List Char)
  | .certFile p => some p
  | _ => none

/-- Argument of a `KeyFile` option, if it is one. -/
def keyFileArg : optDesc → Option (List Char)
  | .keyFile p => some p
  | _ => none

/-- The value of the last option in the list that sets a given field
(as selected by `f`), or the default when none does. -/
def lastSet {α : Type} (f : optDesc → Option α) (d : α) : List optDesc → α
  | [] => d
  | o :: rest => lastSet f ((f o).getD d) rest

/-! ## Declarative characterisation of the pattern matches -/

/-- `out` contains, after prefix `a`, a full `fileRe` match with groups
`g1` and `g2` and trailing text `b`. -/
def FileDecompAt (out a g1 g2 b : List Char) : Prop :=
  out = a ++ litPre ++ g1 ++ litMid ++ g2 ++ litFin ++ b ∧
  g1 ≠ [] ∧ '\n' ∉ g1 ∧ g2 ≠ [] ∧ '\n' ∉ g2

/-- `out` matches `fileRe` somewhere. -/
def HasFileMatch (out : List Char) : Prop :=
  ∃ a g1 g2 b, FileDecompAt out a g1 g2 b

/-- Leftmost-first order on candidate matches: earlier start, then
shorter first group, then shorter second group. -/
def MatchLe (a g1 g2 a' g1' g2' : List Char) : Prop :=
  a.length < a'.length ∨
  (a = a' ∧ (g1.length < g1'.length ∨ (g1 = g1' ∧ g2.length ≤ g2'.length)))

/-- `(g1, g2)` is the first match of `fileRe` in `out` under
leftmost-first semantics. -/
def FirstFileMatch (out g1 g2 : List Char) : Prop :=
  ∃ a b, FileDecompAt out a g1 g2 b ∧
    ∀ a' g1' g2' b', FileDecompAt out a' g1' g2' b' → MatchLe a g1 g2 a' g1' g2'

/-- `out` contains, after prefix `a`, a full `caRe` match with group `g`. -/
def CADecompAt (out a g : List Char) : Prop :=
  ∃ m b, out = a ++ caPre ++ g ++ ('"' :: ' ' :: m :: '\n' :: b) ∧
    (m = '💥' ∨ m = '✨') ∧ g ≠ [] ∧ '\n' ∉ g

/-- `out` matches `caRe` somewhere. -/
def HasCAMatch (out : List Char) : Prop :=
  ∃ a g, CADecompAt out a g

/-! ## Stub runners and sample transcripts for concrete witnesses -/

/-- A stub runner that succeeds with a fixed combined output. -/
def runStub (o : List Char) : Cmd → procResult := fun _ => ⟨o, none⟩

/-- A stub runner whose process exits with status 1. -/
def runFailStub : Cmd → procResult :=
  fun _ => ⟨"boom\n".data, some (.exitErr "exit status 1".data [])⟩

/-- A sample distrusted transcript with a file line. -/
def outDistrust : List Char :=
  ("The local CA is not installed in the system trust store ⚠️\nThe certificate is at \"./c.pem\" and the key at \"./k.pem\" ✅\n").data

/-- A sample trusted transcript with a file line and no CA line. -/
def outTrusted : List Char :=
  ("The certificate is at \"./c.pem\" and the key at \"./k.pem\" ✅\n").data

/-- A sample transcript with no file line and no CA line. -/
def outBare : List Char := "nothing to see here\n".data

/-! ## Helper lemmas -/

theorem cleanPath_ne_nil (p : List Char) : cleanPath p ≠ [] := by
  unfold cleanPath
  split
  · simp
  · dsimp only
    split <;> split <;> simp_all

theorem joinPath_ne_nil (a b : List Char) (ha : a ≠ []) : joinPath a b ≠ [] := by
  unfold joinPath
  rw [if_neg ha]
  exact cleanPath_ne_nil _

theorem foldl_optDesc_fields (l : List optDesc) :
    ∀ p : params,
      (List.foldl (fun q o => o q) p (l.map optDesc.app)).domains
          = lastSet domainsArg p.domains l ∧
      (List.foldl (fun q o => o q) p (l.map optDesc.app)).requireTrust
          = lastSet requireTrustedArg p.requireTrust l ∧
      (List.foldl (fun q o => o q) p (l.map optDesc.app)).dir
          = lastSet directoryArg p.dir l ∧
      (List.foldl (fun q o => o q) p (l.map optDesc.app)).certFile
          = lastSet certFileArg p.certFile l ∧
      (List.foldl (fun q o => o q) p (l.map optDesc.app)).keyFile
          = lastSet keyFileArg p.keyFile l := by
  induction l with
  | nil => intro p; simp [lastSet]
  | cons o rest ih =>
      intro p
      cases o <;>
        simpa [optDesc.app, Domains, RequireTrusted, Directory, CertFile, KeyFile,
          lastSet, domainsArg, requireTrustedArg, directoryArg, certFileArg,
          keyFileArg] using ih _

theorem isPrefixOf_eq_true {l s : List Char} (h : l.isPrefixOf s = true) :
    ∃ t, s = l ++ t := by
  obtain ⟨t, ht⟩ := List.isPrefixOf_iff_prefix.mp h
  exact ⟨t, ht.symm⟩

theorem isPrefixOf_append (l t : List Char) : l.isPrefixOf (l ++ t) = true :=
  List.isPrefixOf_iff_prefix.mpr ⟨t, rfl⟩

theorem matchG2_sound : ∀ {s g : List Char}, matchG2 s = some g →
    ∃ b, s = g ++ litFin ++ b ∧ g ≠ [] ∧ '\n' ∉ g := by
  intro s
  induction s with
  | nil => intro g h; simp [matchG2] at h
  | cons c s ih =>
      intro g h
      unfold matchG2 at h
      split at h
      · exact absurd h (by simp)
      · rename_i hnl
        split at h
        · rename_i hpre
          obtain ⟨b, rfl⟩ := isPrefixOf_eq_true hpre
          injection h with h
          subst h
          exact ⟨b, by simp, by simp, by
            simp only [List.mem_singleton]
            exact fun hc => hnl hc.symm⟩
        · rw [Option.map_eq_some'] at h
          obtain ⟨g', hg', rfl⟩ := h
          obtain ⟨b, hb, hne, hnl'⟩ := ih hg'
          refine ⟨b, by simp [hb], by simp, ?_⟩
          simp only [List.mem_cons, not_or]
          exact ⟨fun hc => hnl hc.symm, hnl'⟩

theorem matchG2_complete : ∀ (g b : List Char), g ≠ [] → '\n' ∉ g →
    (matchG2 (g ++ litFin ++ b)).isSome = true := by
  intro g
  induction g with
  | nil => intro b h; exact absurd rfl h
  | cons c g' ih =>
      intro b _ hnl
      have hc : ¬(c = '\n') := fun h => hnl (by simp [h])
      show (matchG2 (c :: (g' ++ litFin ++ b))).isSome = true
      unfold matchG2
      rw [if_neg hc]
      split
      · simp
      · rename_i hpre
        cases g' with
        | nil => exact absurd (isPrefixOf_append litFin b) hpre
        | cons d g'' =>
            have hih := ih b (by simp) (fun h => hnl (by simp [h]))
            simpa using hih

theorem matchG2_min : ∀ (g' : List Char) {s g b' : List Char},
    matchG2 s = some g → s = g' ++ litFin ++ b' → g' ≠ [] → '\n' ∉ g' →
    g.length ≤ g'.length := by
  intro g'
  induction g' with
  | nil => intro s g b' _ _ h; exact absurd rfl h
  | cons x t ih =>
      intro s g b' hm hs _ hnl
      subst hs
      rw [show (x :: t) ++ litFin ++ b' = x :: (t ++ litFin ++ b') from rfl] at hm
      unfold matchG2 at hm
      split at hm
      · exact absurd hm (by simp)
      · split at hm
        · injection hm with hm
          subst hm
          simp
        · rename_i hpre
          rw [Option.map_eq_some'] at hm
          obtain ⟨g₀, hg₀, rfl⟩ := hm
          cases t with
          | nil => exact absurd (isPrefixOf_append litFin b') hpre
          | cons d t' =>
              have := ih hg₀ rfl (by simp) (fun h => hnl (by simp [h]))
              simpa using Nat.succ_le_succ this

theorem contAt_sound {s g2 : List Char} (h : contAt s = some g2) :
    ∃ b, s = litMid ++ g2 ++ litFin ++ b ∧ g2 ≠ [] ∧ '\n' ∉ g2 := by
  unfold contAt at h
  split at h
  · rename_i hpre
    obtain ⟨t, rfl⟩ := isPrefixOf_eq_true hpre
    rw [List.drop_left] at h
    obtain ⟨b, hb, hne, hnl⟩ := matchG2_sound h
    exact ⟨b, by rw [hb]; simp [List.append_assoc], hne, hnl⟩
  · exact absurd h (by simp)

theorem contAt_complete (g2 b : List Char) (hne : g2 ≠ []) (hnl : '\n' ∉ g2) :
    (contAt (litMid ++ g2 ++ litFin ++ b)).isSome = true := by
  rw [show litMid ++ g2 ++ litFin ++ b = litMid ++ (g2 ++ litFin ++ b) by
    simp [List.append_assoc]]
  unfold contAt
  rw [if_pos (isPrefixOf_append litMid (g2 ++ litFin ++ b)), List.drop_left]
  exact matchG2_complete g2 b hne hnl

theorem contAt_min {s g2 g2' b' : List Char} (h : contAt s = some g2)
    (hs : s = litMid ++ g2' ++ litFin ++ b') (hne : g2' ≠ []) (hnl : '\n' ∉ g2') :
    g2.length ≤ g2'.length := by
  subst hs
  rw [show litMid ++ g2' ++ litFin ++ b' = litMid ++ (g2' ++ litFin ++ b') by
    simp [List.append_assoc]] at h
  unfold contAt at h
  rw [if_pos (isPrefixOf_append litMid (g2' ++ litFin ++ b')), List.drop_left] at h
  exact matchG2_min g2' h rfl hne hnl

theorem matchG1_sound : ∀ {s g1 g2 : List Char}, matchG1 s = some (g1, g2) →
    ∃ b, s = g1 ++ litMid ++ g2 ++ litFin ++ b ∧
      g1 ≠ [] ∧ '\n' ∉ g1 ∧ g2 ≠ [] ∧ '\n' ∉ g2 := by
  intro s
  induction s with
  | nil => intro g1 g2 h; simp [matchG1] at h
  | cons c s ih =>
      intro g1 g2 h
      unfold matchG1 at h
      split at h
      · exact absurd h (by simp)
      · rename_i hnl
        split at h
        · rename_i g2c hca
          injection h with h
          injection h with h1 h2
          subst h1; subst h2
          obtain ⟨b, hb, hne, hnl2⟩ := contAt_sound hca
          refine ⟨b, by rw [hb]; rfl, by simp, ?_, hne, hnl2⟩
          simp only [List.mem_singleton]
          exact fun hc => hnl hc.symm
        · rename_i hca
          rw [Option.map_eq_some'] at h
          obtain ⟨⟨g1', g2'⟩, hg, heq⟩ := h
          injection heq with h1 h2
          subst h1; subst h2
          obtain ⟨b, hb, hne, hnl1, hne2, hnl2⟩ := ih hg
          refine ⟨b, by rw [hb]; rfl, by simp, ?_, hne2, hnl2⟩
          simp only [List.mem_cons, not_or]
          exact ⟨fun hc => hnl hc.symm, hnl1⟩

theorem matchG1_complete : ∀ (g1 g2 b : List Char), g1 ≠ [] →
    '\n' ∉ g1 → g2 ≠ [] → '\n' ∉ g2 →
    (matchG1 (g1 ++ litMid ++ g2 ++ litFin ++ b)).isSome = true := by
  intro g1
  induction g1 with
  | nil => intro g2 b h; exact absurd rfl h
  | cons c t ih =>
      intro g2 b _ hnl hne2 hnl2
      have hc : ¬(c = '\n') := fun h => hnl (by simp [h])
      show (matchG1 (c :: (t ++ litMid ++ g2 ++ litFin ++ b))).isSome = true
      unfold matchG1
      rw [if_neg hc]
      cases hca : contAt (t ++ litMid ++ g2 ++ litFin ++ b) with
      | some g2c => simp
      | none =>
          cases t with
          | nil =>
              have := contAt_complete g2 b hne2 hnl2
              rw [show ([] : List Char) ++ litMid ++ g2 ++ litFin ++ b
                    = litMid ++ g2 ++ litFin ++ b from rfl] at hca
              rw [hca] at this
              exact absurd this (by simp)
          | cons d t' =>
              have hih := ih g2 b (by simp) (fun h => hnl (by simp [h])) hne2 hnl2
              simpa using hih

theorem matchG1_min : ∀ (g1' : List Char) {s g1 g2 g2' b' : List Char},
    matchG1 s = some (g1, g2) →
    s = g1' ++ litMid ++ g2' ++ litFin ++ b' →
    g1' ≠ [] → '\n' ∉ g1' → g2' ≠ [] → '\n' ∉ g2' →
    g1.length < g1'.length ∨ (g1 = g1' ∧ g2.length ≤ g2'.length) := by
  intro g1'
  induction g1' with
  | nil => intro s g1 g2 g2' b' _ _ h; exact absurd rfl h
  | cons x t ih =>
      intro s g1 g2 g2' b' hm hs _ hnl hne2 hnl2
      subst hs
      rw [show (x :: t) ++ litMid ++ g2' ++ litFin ++ b'
            = x :: (t ++ litMid ++ g2' ++ litFin ++ b') from rfl] at hm
      unfold matchG1 at hm
      split at hm
      · exact absurd hm (by simp)
      · split at hm
        · rename_i g2c hca
          injection hm with hm
          injection hm with h1 h2
          subst h1; subst h2
          cases t with
          | nil =>
              refine Or.inr ⟨rfl, ?_⟩
              exact contAt_min hca (by rfl) hne2 hnl2
          | cons d t' => exact Or.inl (by simp)
        · rename_i hca
          rw [Option.map_eq_some'] at hm
          obtain ⟨⟨g1₀, g2₀⟩, hg, heq⟩ := hm
          injection heq with h1 h2
          subst h1; subst h2
          cases t with
          | nil =>
              have := contAt_complete g2' b' hne2 hnl2
              rw [show ([] : List Char) ++ litMid ++ g2' ++ litFin ++ b'
                    = litMid ++ g2' ++ litFin ++ b' from rfl] at hca
              rw [hca] at this
              exact absurd this (by simp)
          | cons d t' =>
              rcases ih hg rfl (by simp) (fun h => hnl (by simp [h])) hne2 hnl2 with
                hlt | ⟨heq1, hle⟩
              · exact Or.inl (by simpa using Nat.succ_lt_succ hlt)
              · exact Or.inr ⟨by rw [heq1], hle⟩

theorem findFileMatch_sound : ∀ {out g1 g2 : List Char},
    findFileMatch out = some (g1, g2) → ∃ a b, FileDecompAt out a g1 g2 b := by
  intro out
  induction out with
  | nil => intro g1 g2 h; simp [findFileMatch] at h
  | cons c s ih =>
      intro g1 g2 h
      unfold findFileMatch at h
      split at h
      · rename_i r heq
        injection h with h
        subst h
        split at heq
        · rename_i hpre
          obtain ⟨t, ht⟩ := isPrefixOf_eq_true hpre
          rw [ht, List.drop_left] at heq
          obtain ⟨b, hb, hne1, hnl1, hne2, hnl2⟩ := matchG1_sound heq
          refine ⟨[], b, ?_, hne1, hnl1, hne2, hnl2⟩
          rw [ht, hb]
          simp [List.append_assoc]
        · exact absurd heq (by simp)
      · rename_i heq
        obtain ⟨a', b, hd, hne1, hnl1, hne2, hnl2⟩ := ih h
        refine ⟨c :: a', b, ?_, hne1, hnl1, hne2, hnl2⟩
        rw [show (c :: a') ++ litPre ++ g1 ++ litMid ++ g2 ++ litFin ++ b
              = c :: (a' ++ litPre ++ g1 ++ litMid ++ g2 ++ litFin ++ b) by
            simp]
        rw [← hd]

theorem findFileMatch_complete : ∀ {out : List Char} (a g1 g2 b : List Char),
    FileDecompAt out a g1 g2 b → (findFileMatch out).isSome = true := by
  intro out
  induction out with
  | nil =>
      intro a g1 g2 b hd
      obtain ⟨h1, _⟩ := hd
      rw [eq_comm] at h1
      simp [litPre] at h1
  | cons c s ih =>
      intro a g1 g2 b hd
      obtain ⟨h1, hne1, hnl1, hne2, hnl2⟩ := hd
      cases a with
      | nil =>
          have h1' : c :: s = litPre ++ (g1 ++ litMid ++ g2 ++ litFin ++ b) := by
            rw [h1]; simp [List.append_assoc]
          have hpre : litPre.isPrefixOf (c :: s) = true := by
            rw [h1']; exact isPrefixOf_append _ _
          unfold findFileMatch
          rw [if_pos hpre, h1', List.drop_left]
          cases hm : matchG1 (g1 ++ litMid ++ g2 ++ litFin ++ b) with
          | some r => simp
          | none =>
              have := matchG1_complete g1 g2 b hne1 hnl1 hne2 hnl2
              rw [hm] at this
              exact absurd this (by simp)
      | cons x a' =>
          simp only [List.cons_append] at h1
          injection h1 with hx hs
          have hih := ih a' g1 g2 b ⟨hs, hne1, hnl1, hne2, hnl2⟩
          unfold findFileMatch
          cases hm : (if litPre.isPrefixOf (c :: s) = true then
              matchG1 ((c :: s).drop litPre.length) else none) with
          | some r => simp
          | none => simpa using hih

theorem findFileMatch_first : ∀ {out g1 g2 : List Char},
    findFileMatch out = some (g1, g2) →
    ∃ a b, FileDecompAt out a g1 g2 b ∧
      ∀ a' g1' g2' b', FileDecompAt out a' g1' g2' b' → MatchLe a g1 g2 a' g1' g2' := by
  intro out
  induction out with
  | nil => intro g1 g2 h; simp [findFileMatch] at h
  | cons c s ih =>
      intro g1 g2 h
      unfold findFileMatch at h
      split at h
      · rename_i r heq
        injection h with h
        subst h
        split at heq
        · rename_i hpre
          obtain ⟨t, ht⟩ := isPrefixOf_eq_true hpre
          rw [ht, List.drop_left] at heq
          obtain ⟨b, hb, hne1, hnl1, hne2, hnl2⟩ := matchG1_sound heq
          refine ⟨[], b, ⟨?_, hne1, hnl1, hne2, hnl2⟩, ?_⟩
          · rw [ht, hb]; simp [List.append_assoc]
          · intro a' g1' g2' b' hd'
            obtain ⟨h1', hne1', hnl1', hne2', hnl2'⟩ := hd'
            cases a' with
            | nil =>
                have ht' : c :: s = litPre ++ (g1' ++ litMid ++ g2' ++ litFin ++ b') := by
                  rw [h1']; simp [List.append_assoc]
                rw [ht] at ht'
                have hteq : t = g1' ++ litMid ++ g2' ++ litFin ++ b' :=
                  List.append_cancel_left ht'
                rcases matchG1_min g1' heq hteq hne1' hnl1' hne2' hnl2' with hlt | ⟨he, hle⟩
                · exact Or.inr ⟨rfl, Or.inl hlt⟩
                · exact Or.inr ⟨rfl, Or.inr ⟨he, hle⟩⟩
            | cons x a'' => exact Or.inl (by simp)
        · exact absurd heq (by simp)
      · rename_i heq
        obtain ⟨a₀, b₀, hd₀, hmin₀⟩ := ih h
        obtain ⟨h0, hne1, hnl1, hne2, hnl2⟩ := hd₀
        refine ⟨c :: a₀, b₀, ⟨?_, hne1, hnl1, hne2, hnl2⟩, ?_⟩
        · rw [show (c :: a₀) ++ litPre ++ g1 ++ litMid ++ g2 ++ litFin ++ b₀
                = c :: (a₀ ++ litPre ++ g1 ++ litMid ++ g2 ++ litFin ++ b₀) by
              simp]
          rw [← h0]
        · intro a' g1' g2' b' hd'
          obtain ⟨h1', hne1', hnl1', hne2', hnl2'⟩ := hd'
          cases a' with
          | nil =>
              have ht' : c :: s = litPre ++ (g1' ++ litMid ++ g2' ++ litFin ++ b') := by
                rw [h1']; simp [List.append_assoc]
              have hpre : litPre.isPrefixOf (c :: s) = true := by
                rw [ht']; exact isPrefixOf_append _ _
              rw [if_pos hpre, ht', List.drop_left] at heq
              have := matchG1_complete g1' g2' b' hne1' hnl1' hne2' hnl2'
              rw [heq] at this
              exact absurd this (by simp)
          | cons x a'' =>
              simp only [List.cons_append] at h1'
              injection h1' with hx hs
              have hm := hmin₀ a'' g1' g2' b' ⟨hs, hne1', hnl1', hne2', hnl2'⟩
              rcases hm with hlt | ⟨he, hinner⟩
              · exact Or.inl (by simpa using Nat.succ_lt_succ hlt)
              · subst hx
                exact Or.inr ⟨by rw [he], hinner⟩

theorem hasFileMatch_iff (out : List Char) :
    HasFileMatch out ↔ (findFileMatch out).isSome = true := by
  constructor
  · rintro ⟨a, g1, g2, b, hd⟩
    exact findFileMatch_complete a g1 g2 b hd
  · intro h
    obtain ⟨⟨g1, g2⟩, hr⟩ := Option.isSome_iff_exists.mp h
    obtain ⟨a, b, hd⟩ := findFileMatch_sound hr
    exact ⟨a, g1, g2, b, hd⟩

theorem caContB_sound : ∀ {s : List Char}, caContB s = true →
    ∃ m b, s = '"' :: ' ' :: m :: '\n' :: b ∧ (m = '💥' ∨ m = '✨') := by
  intro s h
  unfold caContB at h
  split at h
  · rename_i m b
    exact ⟨m, b, rfl, by simpa using h⟩
  · simp at h

theorem caContB_complete (m : Char) (b : List Char) (hm : m = '💥' ∨ m = '✨') :
    caContB ('"' :: ' ' :: m :: '\n' :: b) = true := by
  rcases hm with rfl | rfl <;> rfl

theorem matchCAGroup_sound : ∀ {s g : List Char}, matchCAGroup s = some g →
    ∃ t, s = g ++ t ∧ caContB t = true ∧ g ≠ [] ∧ '\n' ∉ g := by
  intro s
  induction s with
  | nil => intro g h; simp [matchCAGroup] at h
  | cons c s ih =>
      intro g h
      unfold matchCAGroup at h
      split at h
      · exact absurd h (by simp)
      · rename_i hnl
        split at h
        · rename_i hcont
          injection h with h
          subst h
          refine ⟨s, rfl, hcont, by simp, ?_⟩
          simp only [List.mem_singleton]
          exact fun hc => hnl hc.symm
        · rw [Option.map_eq_some'] at h
          obtain ⟨g', hg', rfl⟩ := h
          obtain ⟨t, ht, hcont, hne, hnl'⟩ := ih hg'
          refine ⟨t, by rw [ht]; rfl, hcont, by simp, ?_⟩
          simp only [List.mem_cons, not_or]
          exact ⟨fun hc => hnl hc.symm, hnl'⟩

theorem matchCAGroup_complete : ∀ (g t : List Char), g ≠ [] → '\n' ∉ g →
    caContB t = true → (matchCAGroup (g ++ t)).isSome = true := by
  intro g
  induction g with
  | nil => intro t h; exact absurd rfl h
  | cons c g' ih =>
      intro t _ hnl hcont
      have hc : ¬(c = '\n') := fun h => hnl (by simp [h])
      show (matchCAGroup (c :: (g' ++ t))).isSome = true
      unfold matchCAGroup
      rw [if_neg hc]
      split
      · simp
      · rename_i hcont'
        cases g' with
        | nil => exact absurd hcont (by simpa using hcont')
        | cons d g'' =>
            have hih := ih t (by simp) (fun h => hnl (by simp [h])) hcont
            simpa using hih

theorem findCAMatch_sound : ∀ {out g : List Char},
    findCAMatch out = some g → ∃ a, CADecompAt out a g := by
  intro out
  induction out with
  | nil => intro g h; simp [findCAMatch] at h
  | cons c s ih =>
      intro g h
      unfold findCAMatch at h
      split at h
      · rename_i g₀ heq
        injection h with h
        subst h
        split at heq
        · rename_i hpre
          obtain ⟨t, ht⟩ := isPrefixOf_eq_true hpre
          rw [ht, List.drop_left] at heq
          obtain ⟨t', ht', hcont, hne, hnl⟩ := matchCAGroup_sound heq
          obtain ⟨m, b, hb, hm⟩ := caContB_sound hcont
          refine ⟨[], m, b, ?_, hm, hne, hnl⟩
          rw [ht, ht', hb]
          simp [List.append_assoc]
        · exact absurd heq (by simp)
      · rename_i heq
        obtain ⟨a', m, b, hd, hm, hne, hnl⟩ := ih h
        refine ⟨c :: a', m, b, ?_, hm, hne, hnl⟩
        rw [show (c :: a') ++ caPre ++ g ++ ('"' :: ' ' :: m :: '\n' :: b)
              = c :: (a' ++ caPre ++ g ++ ('"' :: ' ' :: m :: '\n' :: b)) by
            simp]
        rw [← hd]

theorem findCAMatch_complete : ∀ {out : List Char} (a g : List Char),
    CADecompAt out a g → (findCAMatch out).isSome = true := by
  intro out
  induction out with
  | nil =>
      intro a g hd
      obtain ⟨m, b, h1, _⟩ := hd
      rw [eq_comm] at h1
      simp [caPre] at h1
  | cons c s ih =>
      intro a g hd
      obtain ⟨m, b, h1, hm, hne, hnl⟩ := hd
      cases a with
      | nil =>
          have h1' : c :: s = caPre ++ (g ++ ('"' :: ' ' :: m :: '\n' :: b)) := by
            rw [h1]; simp [List.append_assoc]
          have hpre : caPre.isPrefixOf (c :: s) = true := by
            rw [h1']; exact isPrefixOf_append _ _
          unfold findCAMatch
          rw [if_pos hpre, h1', List.drop_left]
          cases hg : matchCAGroup (g ++ ('"' :: ' ' :: m :: '\n' :: b)) with
          | some r => simp
          | none =>
              have := matchCAGroup_complete g ('"' :: ' ' :: m :: '\n' :: b)
                hne hnl (caContB_complete m b hm)
              rw [hg] at this
              exact absurd this (by simp)
      | cons x a' =>
          simp only [List.cons_append] at h1
          injection h1 with hx hs
          have hih := ih a' g ⟨m, b, hs, hm, hne, hnl⟩
          unfold findCAMatch
          cases hg : (if caPre.isPrefixOf (c :: s) = true then
              matchCAGroup ((c :: s).drop caPre.length) else none) with
          | some r => simp
          | none => simpa using hih

theorem hasCAMatch_iff (out : List Char) :
    HasCAMatch out ↔ (findCAMatch out).isSome = true := by
  constructor
  · rintro ⟨a, g, hd⟩
    exact findCAMatch_complete a g hd
  · intro h
    obtain ⟨g, hr⟩ := Option.isSome_iff_exists.mp h
    obtain ⟨a, hd⟩ := findCAMatch_sound hr
    exact ⟨a, g, hd⟩

theorem ExecP_trace (run : Cmd → procResult) (p : params) (hdom : p.domains ≠ []) :
    (ExecP run p).1 = [execCmd p] := by
  unfold ExecP
  rw [if_neg hdom]
  cases h : (run (execCmd p)).err <;> simp [h]

theorem ExecP_success (run : Cmd → procResult) (p : params)
    (hdom : p.domains ≠ []) (hok : (run (execCmd p)).err = none) :
    ExecP run p = ([execCmd p], postCert p (run (execCmd p)).out,
      postErr p (run (execCmd p)).out) := by
  unfold ExecP
  rw [if_neg hdom]
  simp [hok]

theorem splitSlash_ne_nil : ∀ (l : List Char), splitSlash l ≠ [] := by
  intro l
  cases l with
  | nil => simp [splitSlash]
  | cons c s =>
      unfold splitSlash
      split
      · simp
      · split
        · simp
        · simp

theorem splitSlash_append_slash : ∀ (l : List Char),
    splitSlash (l ++ ['/']) = splitSlash l ++ [[]] := by
  intro l
  induction l with
  | nil => rfl
  | cons c s ih =>
      show splitSlash (c :: (s ++ ['/'])) = splitSlash (c :: s) ++ [[]]
      unfold splitSlash
      split
      · rw [ih]
        simp
      · rw [ih]
        cases hs : splitSlash s with
        | nil => exact absurd hs (splitSlash_ne_nil s)
        | cons g gs => simp

theorem isAbs_append_slash (d : List Char) (hd : d ≠ []) :
    isAbs (d ++ ['/']) = isAbs d := by
  cases d with
  | nil => exact absurd rfl hd
  | cons x t => rfl

theorem cleanPath_append_slash (d : List Char) (hd : d ≠ []) :
    cleanPath (d ++ ['/']) = cleanPath d := by
  unfold cleanPath
  rw [if_neg (by simp : ¬(d ++ ['/'] = [])), if_neg hd]
  rw [isAbs_append_slash d hd, splitSlash_append_slash]
  rw [List.filter_append]
  simp

theorem joinPath_nil_right (d : List Char) (hd : d ≠ []) :
    joinPath d [] = cleanPath d := by
  unfold joinPath
  rw [if_neg hd]
  exact cleanPath_append_slash d hd

theorem postCert_CARoot (p : params) (o : List Char) :
    (postCert p o).CARoot = parseCA o := by
  unfold postCert
  dsimp only
  split <;> rfl

theorem postCert_Trusted (p : params) (o : List Char) :
    (postCert p o).Trusted = parseTrusted o := by
  unfold postCert
  dsimp only
  split <;> rfl

theorem postCert_File_ne_nil (p : params) (o : List Char)
    (h : (parseFiles o).1 ≠ []) : (postCert p o).File ≠ [] := by
  unfold postCert
  dsimp only
  split
  · rename_i hdir
    dsimp only
    split
    · exact joinPath_ne_nil _ _ hdir
    · exact h
  · exact h

theorem postCert_KeyFile_ne_nil (p : params) (o : List Char)
    (h : (parseFiles o).2 ≠ []) : (postCert p o).KeyFile ≠ [] := by
  unfold postCert
  dsimp only
  split
  · rename_i hdir
    dsimp only
    split
    · exact joinPath_ne_nil _ _ hdir
    · exact h
  · exact h

/-! ## The claims -/

/-- C2: for every option list whose resulting domain list is empty and
every runner, `Exec` spawns no process (empty trace) and immediately
returns the zero `Cert` together with `ErrNoDomains`. -/
theorem exec_no_domains (run : Cmd → procResult) (opts : List Opt)
    (h : (applyOpts opts).domains = []) :
    Exec run opts = ([], certZero, some ErrNoDomains) := by
  simp [Exec, ExecP, h]

/-- Witness for C2 at a concrete runner and option list. -/
theorem exec_no_domains_witness :
    Exec (runStub outTrusted) [Domains []] = ([], certZero, some ErrNoDomains) :=
  exec_no_domains (runStub outTrusted) [Domains []] rfl

/-- C3: the parsed trust flag is `false` exactly when the output contains
the substring `"not installed"`. -/
theorem parseTrusted_eq_false_iff (out : List Char) :
    parseTrusted out = false ↔ containsSub "not installed".data out = true := by
  simp [parseTrusted]

/-- C5: when the external process fails with an exit error, `Exec` returns
a flat error string `"mkcert: <msg>"` built with `%s`; walking its
(empty) unwrap chain for a `*exec.ExitError` finds nothing, so the caller
cannot recover the underlying exit error, contrary to the spec and to the
repository's own example, which calls `errors.As` on it. -/
theorem exec_process_error_not_unwrappable (run : Cmd → procResult)
    (opts : List Opt) (m st : List Char)
    (hdom : (applyOpts opts).domains ≠ [])
    (herr : (run (execCmd (applyOpts opts))).err = some (.exitErr m st)) :
    (Exec run opts).2.2 = some (goError.errorString ("mkcert: ".data ++ m)) ∧
    goError.asExitErr (goError.errorString ("mkcert: ".data ++ m)) = none := by
  constructor
  · simp [Exec, ExecP, if_neg hdom, herr, goError.message]
  · rfl

/-- Witness for C5 at a concrete failing runner. -/
theorem exec_process_error_not_unwrappable_witness :
    (Exec runFailStub [Domains ["localhost".data]]).2.2
        = some (goError.errorString "mkcert: exit status 1".data) ∧
    goError.asExitErr (goError.errorString "mkcert: exit status 1".data) = none :=
  exec_process_error_not_unwrappable runFailStub [Domains ["localhost".data]]
    "exit status 1".data [] (by decide) rfl

/-- C8: for a non-empty domain list, `Exec` spawns exactly one command:
the `mkcert` executable with the optional `-cert-file` pair, then the
optional `-key-file` pair, then the domains in order, in the configured
working directory. -/
theorem exec_command_line (run : Cmd → procResult) (opts : List Opt)
    (hdom : (applyOpts opts).domains ≠ []) :
    (Exec run opts).1 =
      [⟨"mkcert".data,
        (if (applyOpts opts).certFile ≠ [] then
            ["-cert-file".data, (applyOpts opts).certFile] else []) ++
          ((if (applyOpts opts).keyFile ≠ [] then
            ["-key-file".data, (applyOpts opts).keyFile] else []) ++
          (applyOpts opts).domains),
        (applyOpts opts).dir⟩] := by
  rw [show Exec run opts = ExecP run (applyOpts opts) from rfl,
    ExecP_trace run (applyOpts opts) hdom]
  simp [execCmd, cmdArgs, List.append_assoc]

/-- Witness for C8 at a concrete runner and option list. -/
theorem exec_command_line_witness :
    (Exec (runStub outTrusted)
        [Domains ["localhost".data, "::1".data], CertFile "c.pem".data]).1 =
      [⟨"mkcert".data,
        ["-cert-file".data, "c.pem".data, "localhost".data, "::1".data], []⟩] :=
  exec_command_line (runStub outTrusted)
    [Domains ["localhost".data, "::1".data], CertFile "c.pem".data] (by decide)

/-- C10: `Exec` is determined by folding the options over the zero
`params` in the order given, and each field of the effective
configuration is the argument of the last option that sets it (wholesale
replacement), or the zero default when none does. -/
theorem exec_options_last_wins (l : List optDesc) :
    (∀ run, Exec run (l.map optDesc.app) = ExecP run (applyOpts (l.map optDesc.app))) ∧
    (applyOpts (l.map optDesc.app)).domains = lastSet domainsArg [] l ∧
    (applyOpts (l.map optDesc.app)).requireTrust = lastSet requireTrustedArg false l ∧
    (applyOpts (l.map optDesc.app)).dir = lastSet directoryArg [] l ∧
    (applyOpts (l.map optDesc.app)).certFile = lastSet certFileArg [] l ∧
    (applyOpts (l.map optDesc.app)).keyFile = lastSet keyFileArg [] l :=
  ⟨fun _ => rfl, foldl_optDesc_fields l initParams⟩

/-- C1: on a zero-exit run with trust required, output reporting
"not installed" and output matching the file pattern, `Exec` returns the
manual-installation error and, simultaneously, a `Cert` whose `File` and
`KeyFile` are non-empty. -/
theorem exec_requireTrust_degraded (run : Cmd → procResult) (opts : List Opt)
    (hdom : (applyOpts opts).domains ≠ [])
    (hok : (run (execCmd (applyOpts opts))).err = none)
    (hreq : (applyOpts opts).requireTrust = true)
    (hni : containsSub "not installed".data (run (execCmd (applyOpts opts))).out = true)
    (hm : HasFileMatch (run (execCmd (applyOpts opts))).out) :
    (Exec run opts).2.2 =
      some (goError.errorString ("mkcert: CA at ".data ++
        parseCA (run (execCmd (applyOpts opts))).out ++
        " not trusted, run mkcert -install".data)) ∧
    (Exec run opts).2.1.File ≠ [] ∧ (Exec run opts).2.1.KeyFile ≠ [] := by
  have hE : Exec run opts = ExecP run (applyOpts opts) := rfl
  rw [hE, ExecP_success run _ hdom hok]
  have htr : parseTrusted (run (execCmd (applyOpts opts))).out = false := by
    simp [parseTrusted, hni]
  have hsome : (findFileMatch (run (execCmd (applyOpts opts))).out).isSome = true :=
    (hasFileMatch_iff _).mp hm
  obtain ⟨⟨g1, g2⟩, hr⟩ := Option.isSome_iff_exists.mp hsome
  obtain ⟨a, b, _, hne1, _, hne2, _⟩ := findFileMatch_sound hr
  have hfk : parseFiles (run (execCmd (applyOpts opts))).out = (g1, g2) := by
    simp [parseFiles, hr]
  refine ⟨?_, ?_, ?_⟩
  · simp [postErr, postCert_Trusted, postCert_CARoot, htr, hreq]
  · exact postCert_File_ne_nil _ _ (by rw [hfk]; exact hne1)
  · exact postCert_KeyFile_ne_nil _ _ (by rw [hfk]; exact hne2)

/-- Witness for C1 at a concrete distrusted transcript. -/
theorem exec_requireTrust_degraded_witness :
    (Exec (runStub outDistrust) [Domains ["localhost".data], RequireTrusted true]).2.2
        = some (goError.errorString
            "mkcert: CA at  not trusted, run mkcert -install".data) ∧
    (Exec (runStub outDistrust)
        [Domains ["localhost".data], RequireTrusted true]).2.1.File ≠ [] ∧
    (Exec (runStub outDistrust)
        [Domains ["localhost".data], RequireTrusted true]).2.1.KeyFile ≠ [] :=
  exec_requireTrust_degraded (runStub outDistrust)
    [Domains ["localhost".data], RequireTrusted true]
    (by decide) rfl rfl (by decide) ((hasFileMatch_iff _).mpr (by decide))

/-- C4: on a zero-exit run, when a working directory is configured each
parsed path is joined onto it if relative and kept if absolute; with no
working directory both parsed paths are returned unchanged. -/
theorem exec_path_postprocessing (run : Cmd → procResult) (opts : List Opt)
    (hdom : (applyOpts opts).domains ≠ [])
    (hok : (run (execCmd (applyOpts opts))).err = none) :
    ((applyOpts opts).dir ≠ [] →
      ((isAbs (parseFiles (run (execCmd (applyOpts opts))).out).1 = false →
          (Exec run opts).2.1.File = joinPath (applyOpts opts).dir
            (parseFiles (run (execCmd (applyOpts opts))).out).1) ∧
       (isAbs (parseFiles (run (execCmd (applyOpts opts))).out).1 = true →
          (Exec run opts).2.1.File =
            (parseFiles (run (execCmd (applyOpts opts))).out).1) ∧
       (isAbs (parseFiles (run (execCmd (applyOpts opts))).out).2 = false →
          (Exec run opts).2.1.KeyFile = joinPath (applyOpts opts).dir
            (parseFiles (run (execCmd (applyOpts opts))).out).2) ∧
       (isAbs (parseFiles (run (execCmd (applyOpts opts))).out).2 = true →
          (Exec run opts).2.1.KeyFile =
            (parseFiles (run (execCmd (applyOpts opts))).out).2))) ∧
    ((applyOpts opts).dir = [] →
      (Exec run opts).2.1.File = (parseFiles (run (execCmd (applyOpts opts))).out).1 ∧
      (Exec run opts).2.1.KeyFile = (parseFiles (run (execCmd (applyOpts opts))).out).2) := by
  have hE : Exec run opts = ExecP run (applyOpts opts) := rfl
  rw [hE, ExecP_success run _ hdom hok]
  constructor
  · intro hdir
    refine ⟨?_, ?_, ?_, ?_⟩ <;> intro hab <;> simp [postCert, hdir, hab]
  · intro hdir
    simp [postCert, hdir]

/-- Witness for C4 at a concrete run with a working directory and
relative transcript paths. -/
theorem exec_path_postprocessing_witness :
    (Exec (runStub outTrusted)
        [Domains ["localhost".data], Directory "/tmp/x".data]).2.1.File
      = joinPath "/tmp/x".data "./c.pem".data ∧
    (Exec (runStub outTrusted)
        [Domains ["localhost".data], Directory "/tmp/x".data]).2.1.KeyFile
      = joinPath "/tmp/x".data "./k.pem".data :=
  ⟨((exec_path_postprocessing (runStub outTrusted)
      [Domains ["localhost".data], Directory "/tmp/x".data]
      (by decide) rfl).1 (by decide)).1 rfl,
   ((exec_path_postprocessing (runStub outTrusted)
      [Domains ["localhost".data], Directory "/tmp/x".data]
      (by decide) rfl).1 (by decide)).2.2.1 rfl⟩

/-- C6: `parseFiles` returns exactly the leftmost-first match of the
two-group file pattern when one exists, and the pair of empty strings
when none does. -/
theorem parseFiles_first_match (out : List Char) :
    (HasFileMatch out →
      FirstFileMatch out (parseFiles out).1 (parseFiles out).2) ∧
    (¬ HasFileMatch out → parseFiles out = ([], [])) := by
  constructor
  · intro hm
    obtain ⟨⟨g1, g2⟩, hr⟩ :=
      Option.isSome_iff_exists.mp ((hasFileMatch_iff out).mp hm)
    obtain ⟨a, b, hd, hmin⟩ := findFileMatch_first hr
    have hfk : parseFiles out = (g1, g2) := by simp [parseFiles, hr]
    rw [hfk]
    exact ⟨a, b, hd, hmin⟩
  · intro hno
    have hnone : findFileMatch out = none := by
      cases hfc : findFileMatch out with
      | none => rfl
      | some r => exact absurd ((hasFileMatch_iff out).mpr (by simp [hfc])) hno
    simp [parseFiles, hnone]

/-- Witness for C6: a matching transcript yields its (unique, hence
first) decomposition; a bare transcript yields empty strings. -/
theorem parseFiles_first_match_witness :
    FirstFileMatch outTrusted "./c.pem".data "./k.pem".data ∧
    parseFiles outBare = ([], []) :=
  ⟨(parseFiles_first_match outTrusted).1
      ⟨[], "./c.pem".data, "./k.pem".data, (" ✅\n").data,
        by decide, by decide, by decide, by decide, by decide⟩,
   (parseFiles_first_match outBare).2
      (fun h => absurd ((hasFileMatch_iff outBare).mp h) (by decide))⟩

/-- C7: on a zero-exit run whose output has no CA-line match, the
returned `CARoot` is empty, and if additionally the output is trusted or
trust was not required, the returned error is `nil`. -/
theorem exec_no_ca_line (run : Cmd → procResult) (opts : List Opt)
    (hdom : (applyOpts opts).domains ≠ [])
    (hok : (run (execCmd (applyOpts opts))).err = none)
    (hno : ¬ HasCAMatch (run (execCmd (applyOpts opts))).out)
    (htr : parseTrusted (run (execCmd (applyOpts opts))).out = true ∨
      (applyOpts opts).requireTrust = false) :
    (Exec run opts).2.1.CARoot = [] ∧ (Exec run opts).2.2 = none := by
  have hE : Exec run opts = ExecP run (applyOpts opts) := rfl
  rw [hE, ExecP_success run _ hdom hok]
  have hca : findCAMatch (run (execCmd (applyOpts opts))).out = none := by
    cases hfc : findCAMatch (run (execCmd (applyOpts opts))).out with
    | none => rfl
    | some g =>
        exact absurd ((hasCAMatch_iff _).mpr (by simp [hfc])) hno
  constructor
  · rw [postCert_CARoot]
    simp [parseCA, hca]
  · rcases htr with h | h <;> simp [postErr, postCert_Trusted, h]

/-- Witness for C7 at a concrete CA-line-free transcript. -/
theorem exec_no_ca_line_witness :
    (Exec (runStub outTrusted) [Domains ["localhost".data]]).2.1.CARoot = [] ∧
    (Exec (runStub outTrusted) [Domains ["localhost".data]]).2.2 = none :=
  exec_no_ca_line (runStub outTrusted) [Domains ["localhost".data]]
    (by decide) rfl
    (fun h => absurd ((hasCAMatch_iff outTrusted).mp h) (by decide))
    (Or.inl rfl)

/-- C9: on a zero-exit run with a configured working directory and no
file-pattern match in the output, both returned paths equal the cleaned
working directory (the join of the directory with the empty string) and
in particular are not empty. -/
theorem exec_dir_no_match (run : Cmd → procResult) (opts : List Opt)
    (hdom : (applyOpts opts).domains ≠ [])
    (hok : (run (execCmd (applyOpts opts))).err = none)
    (hdir : (applyOpts opts).dir ≠ [])
    (hno : ¬ HasFileMatch (run (execCmd (applyOpts opts))).out) :
    (Exec run opts).2.1.File = cleanPath (applyOpts opts).dir ∧
    (Exec run opts).2.1.KeyFile = cleanPath (applyOpts opts).dir ∧
    (Exec run opts).2.1.File ≠ [] := by
  have hE : Exec run opts = ExecP run (applyOpts opts) := rfl
  rw [hE, ExecP_success run _ hdom hok]
  have hnone : findFileMatch (run (execCmd (applyOpts opts))).out = none := by
    cases hfc : findFileMatch (run (execCmd (applyOpts opts))).out with
    | none => rfl
    | some r => exact absurd ((hasFileMatch_iff _).mpr (by simp [hfc])) hno
  have hfk : parseFiles (run (execCmd (applyOpts opts))).out = ([], []) := by
    simp [parseFiles, hnone]
  have hFile : (postCert (applyOpts opts) (run (execCmd (applyOpts opts))).out).File
      = cleanPath (applyOpts opts).dir := by
    simp [postCert, hfk, hdir, isAbs]
    exact joinPath_nil_right _ hdir
  have hKey : (postCert (applyOpts opts) (run (execCmd (applyOpts opts))).out).KeyFile
      = cleanPath (applyOpts opts).dir := by
    simp [postCert, hfk, hdir, isAbs]
    exact joinPath_nil_right _ hdir
  exact ⟨hFile, hKey, by rw [hFile]; exact cleanPath_ne_nil _⟩

/-- Witness for C9 at a concrete match-free transcript. -/
theorem exec_dir_no_match_witness :
    (Exec (runStub outBare)
        [Domains ["localhost".data], Directory "/tmp/x".data]).2.1.File
      = cleanPath "/tmp/x".data ∧
    (Exec (runStub outBare)
        [Domains ["localhost".data], Directory "/tmp/x".data]).2.1.KeyFile
      = cleanPath "/tmp/x".data ∧
    (Exec (runStub outBare)
        [Domains ["localhost".data], Directory "/tmp/x".data]).2.1.File ≠ [] :=
  exec_dir_no_match (runStub outBare)
    [Domains ["localhost".data], Directory "/tmp/x".data]
    (by decide) rfl (by decide)
    (fun h => absurd ((hasFileMatch_iff outBare).mp h) (by decide))

end Mkcert
